import Mathlib

/-!
# generate-cache-list.js

A shallow embedding of `src/generate-cache-list.js`, the build step that walks the
project directory and writes `generated-assets.js`, and the properties of its
asset list, its artifact and its error behaviour.

JavaScript strings are embedded as `String`; every string primitive is defined on
the character list (`String.data`). The filesystem is a finite tree of directory
entries in listing order; a directory's `readdir` either yields its entries or
rejects with an I/O error. The runtime's `path.join` is the POSIX one of Node.js
unless a theorem quantifies over the join function.
-/

namespace GenerateCacheList

/-! ## JavaScript string primitives used by the source -/

/-- `s.includes(frag)`: `frag` occurs in `s` as a contiguous substring. -/
def includes (s frag : String) : Bool :=
  decide (frag.data <:+: s.data)

/-- `s.replace(/\\/g, "/")`: every backslash becomes a forward slash. -/
def replaceBackslashes (s : String) : String :=
  ⟨s.data.map (fun c => if c = '\\' then '/' else c)⟩

/-- `s.replace(/^\.\//, "./")`: a match of `./` at the start of the string is replaced
by the string `./`; a string that does not start with `./` is returned as it is. -/
def replaceLeadingDotSlash (s : String) : String :=
  match s.data with
  | '.' :: '/' :: rest => ⟨'.' :: '/' :: rest⟩
  | _ => s

/-! ## `path.join` of Node.js, POSIX flavour -/

namespace path

/-- Cuts a character list at every `/`; the pieces may be empty. -/
def splitSlash : List Char → List (List Char)
  | [] => [[]]
  | c :: cs =>
    if c = '/' then [] :: splitSlash cs
    else
      match splitSlash cs with
      | [] => [[c]]
      | seg :: segs => (c :: seg) :: segs

/-- Puts segments back together with one `/` between neighbours. -/
def joinSlash : List (List Char) → List Char
  | [] => []
  | [seg] => seg
  | seg :: segs => seg ++ '/' :: joinSlash segs

/-- The segment pass of `normalizeString` in Node's `lib/path.js`: empty segments and
`.` are dropped, `..` removes the segment before it (or is kept, for a relative path,
when there is none to remove). `stack` holds the kept segments, last one first. -/
def normalizeString (allowAboveRoot : Bool) :
    List (List Char) → List (List Char) → List (List Char)
  | stack, [] => stack.reverse
  | stack, seg :: rest =>
    if seg = [] ∨ seg = ['.'] then normalizeString allowAboveRoot stack rest
    else if seg = ['.', '.'] then
      match stack with
      | top :: below =>
        if top = ['.', '.'] then
          normalizeString allowAboveRoot
            (if allowAboveRoot then seg :: stack else stack) rest
        else normalizeString allowAboveRoot below rest
      | [] =>
        normalizeString allowAboveRoot (if allowAboveRoot then [seg] else []) rest
    else normalizeString allowAboveRoot (seg :: stack) rest

/-- `path.posix.normalize`. -/
def normalize (p : String) : String :=
  match p.data with
  | [] => "."
  | c :: cs =>
    let isAbsolute : Bool := c = '/'
    let trailingSeparator : Bool := (c :: cs).getLast? = some '/'
    let body := joinSlash (normalizeString (!isAbsolute) [] (splitSlash (c :: cs)))
    if body = [] then
      if isAbsolute then "/" else if trailingSeparator then "./" else "."
    else
      let body := if trailingSeparator then body ++ ['/'] else body
      if isAbsolute then ⟨'/' :: body⟩ else ⟨body⟩

/-- `path.posix.join(a, b)`: the non-empty arguments are glued with `/` and the result
is normalized; with no non-empty argument the result is `.`. -/
def join (a b : String) : String :=
  if a.data = [] then
    if b.data = [] then "." else normalize b
  else if b.data = [] then normalize a
  else normalize (a ++ "/" ++ b)

end path

/-! ## The filesystem seen by the walk -/

/-- The value a rejected `fs` promise carries. -/
structure IOError where
  code : String
  path : String
deriving DecidableEq, Repr

/-- One entry of a `readdir(dir, { withFileTypes: true })` listing. `directory` is an
entry for which `isDirectory()` holds and whose own listing can be read; `unreadable`
is one for which `isDirectory()` holds and whose `readdir` rejects; `file` is every
other entry. -/
inductive Dirent where
  | file (name : String)
  | directory (name : String) (entries : List Dirent)
  | unreadable (name : String) (err : IOError)
deriving Repr

/-- `entry.name` -/
def Dirent.name : Dirent → String
  | .file n => n
  | .directory n _ => n
  | .unreadable n _ => n

/-- `entry.isDirectory()` -/
def Dirent.isDirectory : Dirent → Bool
  | .file _ => false
  | .directory _ _ => true
  | .unreadable _ _ => true

/-! ## The program -/

/-- `const ROOT = "./"` -/
def ROOT : String := "./"

/-- `const IGNORE = new Set([...])`, in insertion order. -/
def IGNORE : List String :=
  ["node_modules", ".git", "generate-cache-list.js", "service-worker.js",
   "generated-assets.js"]

/-- `[...IGNORE].some(ignore => fullPath.includes(ignore))` -/
def ignored (fullPath : String) : Bool :=
  IGNORE.any (fun ignore => includes fullPath ignore)

/-- `fullPath.replace(/\\/g, "/").replace(/^\.\//, "./")` -/
def normalizeForBrowsers (fullPath : String) : String :=
  replaceLeadingDotSlash (replaceBackslashes fullPath)

mutual
/-- The `for (const entry of entries)` loop of `scanDirectory(dir)`, run on the listing
`entries` that `readdir(dir)` returned. `assets` is the module-level accumulator; the
result is the completion of the loop (normal, or the error thrown) and the accumulator
as the loop left it. -/
def scanEntries (pathJoin : String → String → String) (dir : String) :
    List Dirent → List String → Except IOError Unit × List String
  | [], assets => (.ok (), assets)
  | entry :: rest, assets =>
    match scanEntry pathJoin dir entry assets with
    | (.ok (), assets1) => scanEntries pathJoin dir rest assets1
    | (.error err, assets1) => (.error err, assets1)
/-- One iteration of the loop body. -/
def scanEntry (pathJoin : String → String → String) (dir : String) :
    Dirent → List String → Except IOError Unit × List String
  | .file name, assets =>
    let fullPath := pathJoin dir name
    if ignored fullPath then (.ok (), assets)
    else (.ok (), assets ++ [normalizeForBrowsers fullPath])
  | .directory name entries, assets =>
    let fullPath := pathJoin dir name
    if ignored fullPath then (.ok (), assets)
    else scanEntries pathJoin fullPath entries assets
  | .unreadable name err, assets =>
    let fullPath := pathJoin dir name
    if ignored fullPath then (.ok (), assets)
    else (.error err, assets)
end

/-- `async function scanDirectory(dir)`: `listing` is what `fs.readdir(dir)` settles
to. -/
def scanDirectory (pathJoin : String → String → String) (dir : String)
    (listing : Except IOError (List Dirent)) (assets : List String) :
    Except IOError Unit × List String :=
  match listing with
  | .error err => (.error err, assets)
  | .ok entries => scanEntries pathJoin dir entries assets

/-- The Orderer: `["./", "./index.html", ...assets.filter(a => a !== "./index.html")]` -/
def orderedAssets (assets : List String) : List String :=
  "./" :: "./index.html" :: assets.filter (fun a => a ≠ "./index.html")

/-! ## `JSON.stringify(value, null, 2)` on an array of strings -/

namespace JSON

/-- Lower-case hexadecimal digit of a number below 16. -/
def hexDigit (n : Nat) : Char :=
  if n < 10 then Char.ofNat (48 + n) else Char.ofNat (87 + n)

/-- The escape `QuoteJSONString` emits for one code point: the short escapes, `\u00xx`
for the other control characters, the character itself otherwise. -/
def escapeChar (c : Char) : List Char :=
  if c = '"' then ['\\', '"']
  else if c = '\\' then ['\\', '\\']
  else if c.toNat = 8 then ['\\', 'b']
  else if c.toNat = 9 then ['\\', 't']
  else if c.toNat = 10 then ['\\', 'n']
  else if c.toNat = 12 then ['\\', 'f']
  else if c.toNat = 13 then ['\\', 'r']
  else if c.toNat < 32 then
    ['\\', 'u', '0', '0', hexDigit (c.toNat / 16), hexDigit (c.toNat % 16)]
  else [c]

/-- `QuoteJSONString` -/
def quote (s : String) : List Char :=
  '"' :: (s.data.flatMap escapeChar ++ ['"'])

/-- The lines of a non-empty array: each element indented by the gap, a comma after
every element but the last. -/
def items : List String → List Char
  | [] => []
  | [s] => ' ' :: ' ' :: quote s
  | s :: rest => ' ' :: ' ' :: (quote s ++ ',' :: '\n' :: items rest)

/-- `JSON.stringify(xs, null, 2)` for an array of strings. -/
def stringify (xs : List String) : String :=
  match xs with
  | [] => "[]"
  | _ => ⟨'[' :: '\n' :: (items xs ++ ['\n', ']'])⟩

end JSON

/-- The template literal assigned to `output`. -/
def output (ordered : List String) : String :=
  "\n// auto-generated — do not modify manually!\nconst CACHE = \"flashcards-v\" + Date.now();\n\nconst ASSETS = "
    ++ JSON.stringify ordered ++ ";\n"

/-- First summary line. -/
def generatedLine : String := "✔ Cache list generated in: generated-assets.js"

/-- Second summary line: the template literal with `orderedAssets.length`. -/
def totalLine (n : Nat) : String := "📦 Total assets cached: " ++ toString n

/-! ## The run -/

/-- What the run depends on outside the program text: the listing of the working
directory, the clock, the content of `generated-assets.js` before the run (`none`: no
such file), and whether `fs.writeFile` rejects (then: with which error, and what it
leaves at the path). -/
structure World where
  root : Except IOError (List Dirent)
  now : Nat
  artifact : Option String
  writeFault : Option (IOError × Option String)

/-- What the run leaves behind: the content of `generated-assets.js`, the lines given to
`console.log`, the values given to `console.error`, and `process.exitCode`, the status
the process ends with once nothing is pending. -/
structure Process where
  artifact : Option String
  stdout : List String
  stderr : List IOError
  exitCode : Nat
deriving DecidableEq, Repr

/-- `async function generate()`: the settlement of its promise, and the process state
at that moment. The accumulator `assets` starts as the empty array of the module. -/
def generate (pathJoin : String → String → String) (w : World) :
    Except IOError Unit × Process :=
  let start : Process := ⟨w.artifact, [], [], 0⟩
  match scanDirectory pathJoin ROOT w.root [] with
  | (.error err, _) => (.error err, start)
  | (.ok (), assets) =>
    let ordered := orderedAssets assets
    match w.writeFault with
    | some (err, remains) => (.error err, { start with artifact := remains })
    | none =>
      (.ok (), { start with
        artifact := some (output ordered)
        stdout := [generatedLine, totalLine ordered.length] })

/-- The module's last statement, `generate().catch(console.error)`: a rejection is
handled by printing its error; nothing assigns `process.exitCode`. -/
def main (pathJoin : String → String → String) (w : World) : Process :=
  match generate pathJoin w with
  | (.ok (), p) => p
  | (.error err, p) => { p with stderr := p.stderr ++ [err] }

/-! ## Reading one escape back, to tell serialized strings apart -/

namespace JSON

/-- Value of a lower-case hexadecimal digit. -/
def hexValue (c : Char) : Nat :=
  if c.toNat < 58 then c.toNat - 48 else c.toNat - 87

/-- Reads the escape that follows a backslash: the character it stands for and the text
after it. -/
def unescapeTail : List Char → Option (Char × List Char)
  | [] => none
  | e :: r =>
    if e = '"' then some ('"', r)
    else if e = '\\' then some ('\\', r)
    else if e = 'b' then some (Char.ofNat 8, r)
    else if e = 't' then some (Char.ofNat 9, r)
    else if e = 'n' then some (Char.ofNat 10, r)
    else if e = 'f' then some (Char.ofNat 12, r)
    else if e = 'r' then some (Char.ofNat 13, r)
    else if e = 'u' then
      match r with
      | _ :: _ :: x :: y :: r2 => some (Char.ofNat (16 * hexValue x + hexValue y), r2)
      | _ => none
    else none

/-- Reads one character of a quoted string's body: `none` at the closing quote. -/
def unescape : List Char → Option (Char × List Char)
  | [] => none
  | c :: r =>
    if c = '"' then none
    else if c = '\\' then unescapeTail r
    else some (c, r)

end JSON

/-! ## Directory trees a host can present, and what the walk is compared with -/

/-- A name `readdir` can return on a POSIX host: not empty, no `/`, neither `.` nor
`..`. A backslash is an ordinary character of such a name. -/
def validName (n : String) : Bool :=
  decide (n.data ≠ [] ∧ '/' ∉ n.data ∧ n.data ≠ ['.'] ∧ n.data ≠ ['.', '.'])

mutual
/-- Every name in the listing, at any depth, is one `readdir` can return. -/
def wellFormed : List Dirent → Bool
  | [] => true
  | entry :: rest => wellFormedEntry entry && wellFormed rest
/-- Every name in the entry, at any depth, is one `readdir` can return. -/
def wellFormedEntry : Dirent → Bool
  | .file name => validName name
  | .directory name entries => validName name && wellFormed entries
  | .unreadable name _ => validName name
end

mutual
/-- The joined paths of all files at or below the listing `entries` of `dir`, in listing
order, whether ignored or not. -/
def filesUnder (pathJoin : String → String → String) (dir : String) :
    List Dirent → List String
  | [] => []
  | entry :: rest => filesOf pathJoin dir entry ++ filesUnder pathJoin dir rest
/-- The joined paths of all files at or below one entry of `dir`. -/
def filesOf (pathJoin : String → String → String) (dir : String) :
    Dirent → List String
  | .file name => [pathJoin dir name]
  | .directory name entries => filesUnder pathJoin (pathJoin dir name) entries
  | .unreadable _ _ => []
end

/-- A relative path made of one or more valid names with `/` between them. -/
def CleanPath (d : String) : Prop :=
  ∃ seg segs, d.data = path.joinSlash (seg :: segs) ∧
    ∀ s ∈ seg :: segs, s ≠ [] ∧ '/' ∉ s ∧ s ≠ ['.'] ∧ s ≠ ['.', '.']

/-- A directory the walk can be in: the root, or a clean relative path. -/
def WalkDir (d : String) : Prop := d = ROOT ∨ CleanPath d

/-- The listing `entries` of `dir` holds, at some depth and below no pruned directory, a
directory that is not pruned itself and whose `readdir` rejects. -/
inductive MeetsUnreadable (pathJoin : String → String → String) :
    String → List Dirent → Prop
  | direct {dir : String} {entries : List Dirent} {name : String} {err : IOError} :
      Dirent.unreadable name err ∈ entries → ignored (pathJoin dir name) = false →
      MeetsUnreadable pathJoin dir entries
  | nested {dir : String} {entries : List Dirent} {name : String} {sub : List Dirent} :
      Dirent.directory name sub ∈ entries → ignored (pathJoin dir name) = false →
      MeetsUnreadable pathJoin (pathJoin dir name) sub →
      MeetsUnreadable pathJoin dir entries

/-- The listing `entries` of `dir` holds, at some depth and below no pruned directory, a
directory that is not pruned itself and whose `readdir` rejects with `err`. -/
inductive ReadError (pathJoin : String → String → String) :
    String → List Dirent → IOError → Prop
  | direct {dir : String} {entries : List Dirent} {name : String} {err : IOError} :
      Dirent.unreadable name err ∈ entries → ignored (pathJoin dir name) = false →
      ReadError pathJoin dir entries err
  | nested {dir : String} {entries : List Dirent} {name : String} {sub : List Dirent}
      {err : IOError} :
      Dirent.directory name sub ∈ entries → ignored (pathJoin dir name) = false →
      ReadError pathJoin (pathJoin dir name) sub err →
      ReadError pathJoin dir entries err

/-- The error `err` is one that reading a directory of the walk from the root rejects
with: the root's own, or that of a nested directory that is not pruned. -/
def RootReadError (pathJoin : String → String → String) :
    Except IOError (List Dirent) → IOError → Prop
  | .error e, err => e = err
  | .ok entries, err => ReadError pathJoin ROOT entries err

/-- Reading some directory fails during the walk from the root: the root itself, or a
nested directory that is not pruned. -/
def ReadFails (pathJoin : String → String → String) :
    Except IOError (List Dirent) → Prop
  | .error _ => True
  | .ok entries => MeetsUnreadable pathJoin ROOT entries

/-- The final list `generate` builds from the listing of the root. -/
def finalAssets (pathJoin : String → String → String)
    (listing : Except IOError (List Dirent)) : List String :=
  orderedAssets (scanDirectory pathJoin ROOT listing []).2

/-- The tree of the specification's example scenario. -/
def exampleTree : List Dirent :=
  [.file "index.html", .file "app.js", .directory "node_modules" [.file "foo.js"],
   .directory "assets" [.directory "img" [.file "logo.png"]]]

/-- A tree with files whose names merely contain an ignore fragment. -/
def fragmentTree : List Dirent :=
  [.file "service-worker.js.bak", .file ".gitignore", .file "app.js",
   .directory ".github" [.file "ci.yml"],
   .directory "lib" [.directory "node_modules" [.file "x.js"], .file "util.js"]]

/-- A tree whose directory `private` cannot be read. -/
def lockedTree : List Dirent :=
  [.file "index.html", .unreadable "private" ⟨"EACCES", "private"⟩, .file "app.js"]

/-- A run over the example tree in which the write succeeds. -/
def exampleWorld : World :=
  ⟨.ok exampleTree, 1700000000000, none, none⟩

/-- A run over the locked tree, with an artifact of an earlier run in place. -/
def lockedWorld : World :=
  ⟨.ok lockedTree, 1700000000000, some "old", none⟩

/-- A run in which the disk is full when the artifact is written. -/
def diskFullWorld : World :=
  ⟨.ok exampleTree, 1700000000000, some "old", some (⟨"ENOSPC", "generated-assets.js"⟩, some "")⟩

/-! ## Lemmas on `path.join` -/

namespace path

theorem splitSlash_of_not_mem {s : List Char} (h : '/' ∉ s) : splitSlash s = [s] := by
  induction s with
  | nil => rfl
  | cons c cs ih =>
    simp only [List.mem_cons, not_or] at h
    have hc : c ≠ '/' := fun e => h.1 e.symm
    simp [splitSlash, hc, ih h.2]

theorem splitSlash_append {s : List Char} (h : '/' ∉ s) (t : List Char) :
    splitSlash (s ++ '/' :: t) = s :: splitSlash t := by
  induction s with
  | nil => simp [splitSlash]
  | cons c cs ih =>
    simp only [List.mem_cons, not_or] at h
    have hc : c ≠ '/' := fun e => h.1 e.symm
    simp [splitSlash, hc, ih h.2]

theorem splitSlash_joinSlash (seg : List Char) (segs : List (List Char))
    (h : ∀ s ∈ seg :: segs, '/' ∉ s) :
    splitSlash (joinSlash (seg :: segs)) = seg :: segs := by
  induction segs generalizing seg with
  | nil => simpa [joinSlash] using splitSlash_of_not_mem (h seg (by simp))
  | cons s2 rest ih =>
    have h1 : '/' ∉ seg := h seg (by simp)
    have h2 : ∀ s ∈ s2 :: rest, '/' ∉ s := fun s hs => h s (by simp [hs])
    simp only [joinSlash]
    rw [splitSlash_append h1, ih s2 h2]

theorem normalizeString_valid (b : Bool) (segs stack : List (List Char))
    (h : ∀ s ∈ segs, s ≠ [] ∧ s ≠ ['.'] ∧ s ≠ ['.', '.']) :
    normalizeString b stack segs = stack.reverse ++ segs := by
  induction segs generalizing stack with
  | nil => simp [normalizeString]
  | cons s rest ih =>
    obtain ⟨h1, h2, h3⟩ := h s (by simp)
    have hr : ∀ s ∈ rest, s ≠ [] ∧ s ≠ ['.'] ∧ s ≠ ['.', '.'] :=
      fun s hs => h s (by simp [hs])
    simp [normalizeString, h1, h2, h3, ih _ hr]


theorem joinSlash_snoc (seg : List Char) (segs : List (List Char)) (x : List Char) :
    joinSlash (seg :: segs ++ [x]) = joinSlash (seg :: segs) ++ '/' :: x := by
  induction segs generalizing seg with
  | nil => simp [joinSlash]
  | cons s2 rest ih =>
    have := ih s2
    simp only [List.cons_append] at this
    simp [joinSlash, this]

theorem joinSlash_ne_nil (seg : List Char) (segs : List (List Char)) (h : seg ≠ []) :
    joinSlash (seg :: segs) ≠ [] := by
  cases segs with
  | nil => simpa [joinSlash] using h
  | cons s2 rest => simp [joinSlash, h]

theorem normalize_of_segments (p : String) (segs : List (List Char))
    (hhead : p.data.head? ≠ some '/') (hlast : p.data.getLast? ≠ some '/')
    (hs : normalizeString true [] (splitSlash p.data) = segs)
    (hj : joinSlash segs ≠ []) : normalize p = ⟨joinSlash segs⟩ := by
  unfold normalize
  split
  · rename_i h
    rw [h] at hs
    simp [splitSlash, normalizeString] at hs
    subst hs
    simp [joinSlash] at hj
  · rename_i c cs h
    rw [h] at hhead hlast hs
    have hc : c ≠ '/' := by simpa using hhead
    simp [hc, hs, hj, hlast]

end path

theorem join_root (n : String) (h : validName n = true) : path.join ROOT n = n := by
  simp only [validName, decide_eq_true_eq] at h
  obtain ⟨h1, h2, h3, h4⟩ := h
  have hd : (ROOT ++ "/" ++ n).data = '.' :: '/' :: '/' :: n.data := by
    simp [ROOT]
  have : path.normalize (ROOT ++ "/" ++ n) = ⟨path.joinSlash [n.data]⟩ := by
    apply path.normalize_of_segments
    · simp [hd]
    · rw [hd]
      obtain ⟨c, cs, hn⟩ := List.exists_cons_of_ne_nil h1
      intro hl
      have hl2 : n.data.getLast? = some '/' := by
        rw [hn] at hl ⊢
        simpa [List.getLast?_cons_cons] using hl
      exact h2 (List.mem_of_getLast?_eq_some hl2)
    · rw [hd]
      simp [path.splitSlash, path.splitSlash_of_not_mem h2, path.normalizeString, h1, h3, h4]
    · simpa [path.joinSlash] using h1
  unfold path.join
  simp [ROOT, h1] at this ⊢
  simpa [path.joinSlash] using this


theorem cleanPath_of_validName (n : String) (h : validName n = true) : CleanPath n := by
  simp only [validName, decide_eq_true_eq] at h
  exact ⟨n.data, [], by simp [path.joinSlash], by simpa using h⟩

theorem head?_joinSlash (seg : List Char) (segs : List (List Char)) (h : seg ≠ []) :
    (path.joinSlash (seg :: segs)).head? = seg.head? := by
  obtain ⟨c, cs, rfl⟩ := List.exists_cons_of_ne_nil h
  cases segs <;> simp [path.joinSlash]

theorem join_clean (d n : String) (hd : CleanPath d) (h : validName n = true) :
    path.join d n = d ++ "/" ++ n ∧ CleanPath (d ++ "/" ++ n) := by
  obtain ⟨seg, segs, hdata, hvalid⟩ := hd
  simp only [validName, decide_eq_true_eq] at h
  obtain ⟨h1, h2, h3, h4⟩ := h
  have hseg := hvalid seg (by simp)
  have hdne : d.data ≠ [] := by
    rw [hdata]; exact path.joinSlash_ne_nil seg segs hseg.1
  have hall : ∀ s ∈ seg :: (segs ++ [n.data]),
      s ≠ [] ∧ '/' ∉ s ∧ s ≠ ['.'] ∧ s ≠ ['.', '.'] := by
    intro s hs
    simp only [List.mem_cons, List.mem_append, List.not_mem_nil, or_false] at hs
    rcases hs with hs | hs | hs
    · exact hvalid s (by simp [hs])
    · exact hvalid s (by simp [hs])
    · subst hs; exact ⟨h1, h2, h3, h4⟩
  have hdn : (d ++ "/" ++ n).data = path.joinSlash (seg :: (segs ++ [n.data])) := by
    have := path.joinSlash_snoc seg segs n.data
    simp only [List.cons_append] at this
    rw [this, ← hdata]
    simp
  refine ⟨?_, seg, segs ++ [n.data], hdn, hall⟩
  have hn : path.normalize (d ++ "/" ++ n) = ⟨path.joinSlash (seg :: (segs ++ [n.data]))⟩ := by
    apply path.normalize_of_segments
    · rw [hdn, head?_joinSlash _ _ hseg.1]
      intro hh
      exact hseg.2.1 (List.mem_of_mem_head? hh)
    · intro hl
      have : (d ++ "/" ++ n).data = (d.data ++ ['/']) ++ n.data := by simp
      rw [this, List.getLast?_append_of_ne_nil _ h1] at hl
      exact h2 (List.mem_of_getLast?_eq_some hl)
    · rw [hdn, path.splitSlash_joinSlash _ _ (fun s hs => (hall s hs).2.1)]
      rw [path.normalizeString_valid]
      · simp
      · intro s hs
        exact ⟨(hall s hs).1, (hall s hs).2.2⟩
    · exact path.joinSlash_ne_nil _ _ hseg.1
  unfold path.join
  rw [if_neg hdne, if_neg h1, hn, ← hdn]


mutual
theorem scanEntries_collects (pj : String → String → String) (d : String) :
    ∀ (es : List Dirent) (assets : List String),
      ∃ ps : List String, (scanEntries pj d es assets).2 = assets ++ ps.map normalizeForBrowsers ∧
        ∀ p ∈ ps, ignored p = false ∧ p ∈ filesUnder pj d es
  | [], assets => ⟨[], by simp [scanEntries], by simp⟩
  | e :: rest, assets => by
    obtain ⟨ps1, h1, h1'⟩ := scanEntry_collects pj d e assets
    unfold scanEntries
    rcases hres : scanEntry pj d e assets with ⟨r, a1⟩
    rw [hres] at h1
    simp only at h1
    cases r with
    | ok u =>
      obtain ⟨ps2, h2, h2'⟩ := scanEntries_collects pj d rest a1
      refine ⟨ps1 ++ ps2, by rw [h2, h1]; simp, ?_⟩
      intro p hp
      rcases List.mem_append.1 hp with hp | hp
      · exact ⟨(h1' p hp).1, by simp [filesUnder, (h1' p hp).2]⟩
      · exact ⟨(h2' p hp).1, by simp [filesUnder, (h2' p hp).2]⟩
    | error err =>
      refine ⟨ps1, h1, ?_⟩
      intro p hp
      exact ⟨(h1' p hp).1, by simp [filesUnder, (h1' p hp).2]⟩
theorem scanEntry_collects (pj : String → String → String) (d : String) :
    ∀ (e : Dirent) (assets : List String),
      ∃ ps : List String, (scanEntry pj d e assets).2 = assets ++ ps.map normalizeForBrowsers ∧
        ∀ p ∈ ps, ignored p = false ∧ p ∈ filesOf pj d e
  | .file name, assets => by
    unfold scanEntry
    by_cases hi : ignored (pj d name) = true
    · exact ⟨[], by simp [hi], by simp⟩
    · exact ⟨[pj d name], by simp [hi], by simpa [filesOf] using hi⟩
  | .directory name es, assets => by
    unfold scanEntry
    by_cases hi : ignored (pj d name) = true
    · exact ⟨[], by simp [hi], by simp⟩
    · obtain ⟨ps, h, h'⟩ := scanEntries_collects pj (pj d name) es assets
      exact ⟨ps, by simpa [hi] using h, by simpa [filesOf] using h'⟩
  | .unreadable name err, assets => by
    unfold scanEntry
    by_cases hi : ignored (pj d name) = true
    · exact ⟨[], by simp [hi], by simp⟩
    · exact ⟨[], by simp [hi], by simp⟩
end


theorem wellFormed_cons (e : Dirent) (rest : List Dirent) :
    wellFormed (e :: rest) = true ↔ wellFormedEntry e = true ∧ wellFormed rest = true := by
  simp [wellFormed]

mutual
theorem filesUnder_extends (d : String) (hd : CleanPath d) :
    ∀ (es : List Dirent), wellFormed es = true →
      ∀ p ∈ filesUnder path.join d es, ∃ rest, rest ≠ [] ∧ p.data = d.data ++ '/' :: rest
  | [], _ => by simp [filesUnder]
  | e :: rest, hw => by
    rw [wellFormed_cons] at hw
    intro p hp
    simp only [filesUnder, List.mem_append] at hp
    rcases hp with hp | hp
    · exact filesOf_extends d hd e hw.1 p hp
    · exact filesUnder_extends d hd rest hw.2 p hp
theorem filesOf_extends (d : String) (hd : CleanPath d) :
    ∀ (e : Dirent), wellFormedEntry e = true →
      ∀ p ∈ filesOf path.join d e, ∃ rest, rest ≠ [] ∧ p.data = d.data ++ '/' :: rest
  | .file name, hw => by
    simp only [wellFormedEntry] at hw
    intro p hp
    simp only [filesOf, List.mem_singleton] at hp
    subst hp
    rw [(join_clean d name hd hw).1]
    refine ⟨name.data, ?_, by simp⟩
    simp only [validName, decide_eq_true_eq] at hw
    exact hw.1
  | .directory name es, hw => by
    simp only [wellFormedEntry, Bool.and_eq_true] at hw
    intro p hp
    simp only [filesOf] at hp
    have hj := join_clean d name hd hw.1
    rw [hj.1] at hp
    obtain ⟨rest, hr, hp⟩ := filesUnder_extends (d ++ "/" ++ name) hj.2 es hw.2 p hp
    refine ⟨name.data ++ '/' :: rest, by simp, ?_⟩
    rw [hp]
    simp
  | .unreadable name err, _ => by simp [filesOf]
end

theorem includes_mono (d p frag : String) (hp : d.data <+: p.data)
    (h : includes d frag = true) : includes p frag = true := by
  simp only [includes, decide_eq_true_eq] at h ⊢
  exact h.trans hp.isInfix

theorem ignored_mono (d p : String) (hp : d.data <+: p.data)
    (h : ignored d = true) : ignored p = true := by
  simp only [ignored, List.any_eq_true] at h ⊢
  obtain ⟨frag, hf, hi⟩ := h
  exact ⟨frag, hf, includes_mono d p frag hp hi⟩

theorem filter_filesUnder_of_ignored (d : String) (hd : CleanPath d) (es : List Dirent)
    (hw : wellFormed es = true) (hi : ignored d = true) :
    (filesUnder path.join d es).filter (fun p => !ignored p) = [] := by
  rw [List.filter_eq_nil_iff]
  intro p hp
  obtain ⟨rest, _, hdata⟩ := filesUnder_extends d hd es hw p hp
  have : ignored p = true := ignored_mono d p ⟨'/' :: rest, hdata.symm⟩ hi
  simp [this]

theorem join_walkDir (d n : String) (hd : WalkDir d) (h : validName n = true) :
    CleanPath (path.join d n) := by
  rcases hd with hd | hd
  · subst hd
    rw [join_root n h]
    exact cleanPath_of_validName n h
  · rw [(join_clean d n hd h).1]
    exact (join_clean d n hd h).2

mutual
theorem scanEntries_posix (d : String) (hd : WalkDir d) :
    ∀ (es : List Dirent) (assets : List String), wellFormed es = true →
      (scanEntries path.join d es assets).1 = .ok () →
      (scanEntries path.join d es assets).2 =
        assets ++ ((filesUnder path.join d es).filter (fun p => !ignored p)).map
          normalizeForBrowsers
  | [], assets, _, _ => by simp [scanEntries, filesUnder]
  | e :: rest, assets, hw, hok => by
    rw [wellFormed_cons] at hw
    unfold scanEntries at hok ⊢
    rcases hres : scanEntry path.join d e assets with ⟨r, a1⟩
    rw [hres] at hok
    cases r with
    | ok u =>
      simp only at hok ⊢
      have h1 := scanEntry_posix d hd e assets hw.1 (by rw [hres])
      rw [hres] at h1
      simp only at h1
      rw [scanEntries_posix d hd rest a1 hw.2 hok, h1]
      simp [filesUnder]
    | error err => simp at hok
theorem scanEntry_posix (d : String) (hd : WalkDir d) :
    ∀ (e : Dirent) (assets : List String), wellFormedEntry e = true →
      (scanEntry path.join d e assets).1 = .ok () →
      (scanEntry path.join d e assets).2 =
        assets ++ ((filesOf path.join d e).filter (fun p => !ignored p)).map
          normalizeForBrowsers
  | .file name, assets, _, _ => by
    unfold scanEntry
    by_cases hi : ignored (path.join d name) = true
    · simp [hi, filesOf]
    · simp [hi, filesOf]
  | .directory name es, assets, hw, hok => by
    simp only [wellFormedEntry, Bool.and_eq_true] at hw
    unfold scanEntry at hok ⊢
    by_cases hi : ignored (path.join d name) = true
    · simp only [hi, if_true, filesOf]
      rw [filter_filesUnder_of_ignored _ (join_walkDir d name hd hw.1) es hw.2 hi]
      simp
    · simp only [hi] at hok ⊢
      simp only [Bool.false_eq_true, if_false, filesOf] at hok ⊢
      exact scanEntries_posix (path.join d name) (Or.inr (join_walkDir d name hd hw.1))
        es assets hw.2 hok
  | .unreadable name err, assets, _, hok => by
    unfold scanEntry at hok ⊢
    by_cases hi : ignored (path.join d name) = true
    · simp [hi, filesOf]
    · simp [hi] at hok
end


theorem replaceLeadingDotSlash_eq (s : String) : replaceLeadingDotSlash s = s := by
  unfold replaceLeadingDotSlash
  split
  · rename_i rest h
    cases s
    simp only at h
    rw [h]
  · rfl

theorem normalizeForBrowsers_data (p : String) :
    (normalizeForBrowsers p).data = p.data.map (fun c => if c = '\\' then '/' else c) := by
  simp [normalizeForBrowsers, replaceLeadingDotSlash_eq, replaceBackslashes]

theorem normalizeForBrowsers_no_backslash (p : String) :
    '\\' ∉ (normalizeForBrowsers p).data := by
  rw [normalizeForBrowsers_data]
  intro h
  obtain ⟨c, _, hc⟩ := List.mem_map.1 h
  by_cases hb : c = '\\'
  · simp [hb] at hc
  · simp only [hb, if_false] at hc

theorem map_slash_eq_self (m : List Char)
    (h : '/' ∉ m.map (fun c => if c = '\\' then '/' else c)) :
    m.map (fun c => if c = '\\' then '/' else c) = m := by
  induction m with
  | nil => rfl
  | cons c cs ih =>
    simp only [List.map_cons, List.mem_cons, not_or] at h
    by_cases hb : c = '\\'
    · simp [hb] at h
    · simp only [List.map_cons, hb, if_false, ih h.2]

theorem isInfix_map_slash (frag s : List Char) (h1 : '/' ∉ frag) (h2 : '\\' ∉ frag) :
    frag <:+: s.map (fun c => if c = '\\' then '/' else c) ↔ frag <:+: s := by
  constructor
  · rintro ⟨a, b, hab⟩
    obtain ⟨l1, l2, hs, hl1, _⟩ := List.map_eq_append_iff.1 hab.symm
    obtain ⟨l3, l4, hs1, _, hl4⟩ := List.map_eq_append_iff.1 hl1
    have : l4 = frag := by
      rw [← hl4]
      symm
      apply map_slash_eq_self
      rw [hl4]
      exact h1
    exact ⟨l3, l2, by rw [hs, hs1, this]⟩
  · intro h
    have := List.IsInfix.map (fun c => if c = '\\' then '/' else c) h
    have hf : frag.map (fun c => if c = '\\' then '/' else c) = frag := by
      have hid : ∀ c ∈ frag, (fun c => if c = '\\' then '/' else c) c = id c := by
        intro c hc
        have : c ≠ '\\' := fun e => h2 (e ▸ hc)
        simp [this]
      rw [List.map_congr_left hid, List.map_id]
    rwa [hf] at this

theorem ignored_normalizeForBrowsers (p : String) :
    ignored (normalizeForBrowsers p) = ignored p := by
  have key : ∀ frag ∈ IGNORE, includes (normalizeForBrowsers p) frag = includes p frag := by
    intro frag hf
    have hfr : '/' ∉ frag.data ∧ '\\' ∉ frag.data := by
      revert frag
      decide
    simp only [includes, normalizeForBrowsers_data]
    exact decide_eq_decide.2 (isInfix_map_slash _ _ hfr.1 hfr.2)
  unfold ignored
  rw [Bool.eq_iff_iff, List.any_eq_true, List.any_eq_true]
  constructor
  · rintro ⟨frag, hf, h⟩
    exact ⟨frag, hf, by rwa [key frag hf] at h⟩
  · rintro ⟨frag, hf, h⟩
    exact ⟨frag, hf, by rwa [key frag hf]⟩

/-! ## Lemmas on the run -/

theorem scanEntries_error_of_mem (pj : String → String → String) (d : String) (e : Dirent)
    (h : ∀ assets, ∃ err, (scanEntry pj d e assets).1 = .error err) :
    ∀ es, e ∈ es → ∀ assets, ∃ err, (scanEntries pj d es assets).1 = .error err := by
  intro es
  induction es with
  | nil => simp
  | cons e2 rest ih =>
    intro hmem assets
    unfold scanEntries
    rcases hres : scanEntry pj d e2 assets with ⟨r, a1⟩
    cases r with
    | error err => exact ⟨err, rfl⟩
    | ok u =>
      simp only
      rcases List.mem_cons.1 hmem with heq | hin
      · subst heq
        obtain ⟨err, herr⟩ := h assets
        rw [hres] at herr
        simp at herr
      · exact ih hin a1

theorem scanEntries_error_of_meets (pj : String → String → String) {d : String}
    {es : List Dirent} (h : MeetsUnreadable pj d es) :
    ∀ assets, ∃ err, (scanEntries pj d es assets).1 = .error err := by
  induction h with
  | @direct _ _ _ err hmem hi =>
    apply scanEntries_error_of_mem pj _ _ _ _ hmem
    intro assets
    exact ⟨err, by simp [scanEntry, hi]⟩
  | nested hmem hi _ ih =>
    apply scanEntries_error_of_mem pj _ _ _ _ hmem
    intro assets
    obtain ⟨err, herr⟩ := ih assets
    exact ⟨err, by simpa [scanEntry, hi] using herr⟩

theorem scanDirectory_error_of_readFails (pj : String → String → String)
    (listing : Except IOError (List Dirent)) (h : ReadFails pj listing) (assets : List String) :
    ∃ err, (scanDirectory pj ROOT listing assets).1 = .error err := by
  cases listing with
  | error err => exact ⟨err, rfl⟩
  | ok es => exact scanEntries_error_of_meets pj h assets

theorem generate_of_scan_error (pj : String → String → String) (w : World) (err : IOError)
    (h : (scanDirectory pj ROOT w.root []).1 = .error err) :
    generate pj w = (.error err, ⟨w.artifact, [], [], 0⟩) := by
  unfold generate
  rcases hres : scanDirectory pj ROOT w.root [] with ⟨r, a⟩
  rw [hres] at h
  simp only at h
  subst h
  rfl

theorem generate_of_scan_ok (pj : String → String → String) (w : World)
    (h : (scanDirectory pj ROOT w.root []).1 = .ok ()) :
    generate pj w =
      match w.writeFault with
      | some (err, remains) => (.error err, ⟨remains, [], [], 0⟩)
      | none =>
        (.ok (), ⟨some (output (finalAssets pj w.root)),
          [generatedLine, totalLine (finalAssets pj w.root).length], [], 0⟩) := by
  unfold generate finalAssets
  rcases hres : scanDirectory pj ROOT w.root [] with ⟨r, a⟩
  rw [hres] at h
  simp only at h
  subst h
  cases hw : w.writeFault with
  | none => rfl
  | some f => rfl

theorem scan_ok_of_generate_ok (pj : String → String → String) (w : World)
    (h : (generate pj w).1 = .ok ()) :
    (scanDirectory pj ROOT w.root []).1 = .ok () ∧ w.writeFault = none := by
  rcases hres : (scanDirectory pj ROOT w.root []).1 with err | u
  · rw [generate_of_scan_error pj w err hres] at h
    simp at h
  · refine ⟨rfl, ?_⟩
    rw [generate_of_scan_ok pj w hres] at h
    cases hw : w.writeFault with
    | none => rfl
    | some f =>
      rw [hw] at h
      simp at h

theorem main_exitCode (pj : String → String → String) (w : World) :
    (main pj w).exitCode = 0 := by
  unfold main
  rcases hs : (scanDirectory pj ROOT w.root []).1 with err | u
  · rw [generate_of_scan_error pj w err hs]
  · rw [generate_of_scan_ok pj w hs]
    cases hw : w.writeFault with
    | none => rfl
    | some f => rfl

theorem main_of_scan_error (pj : String → String → String) (w : World) (err : IOError)
    (h : (scanDirectory pj ROOT w.root []).1 = .error err) :
    main pj w = ⟨w.artifact, [], [err], 0⟩ := by
  unfold main
  rw [generate_of_scan_error pj w err h]
  rfl

theorem main_of_generate_ok (pj : String → String → String) (w : World)
    (h : (generate pj w).1 = .ok ()) :
    main pj w = ⟨some (output (finalAssets pj w.root)),
      [generatedLine, totalLine (finalAssets pj w.root).length], [], 0⟩ := by
  obtain ⟨hs, hw⟩ := scan_ok_of_generate_ok pj w h
  unfold main
  rw [generate_of_scan_ok pj w hs, hw]

theorem mem_scanDirectory (pj : String → String → String) (d : String)
    (listing : Except IOError (List Dirent)) (e : String)
    (h : e ∈ (scanDirectory pj d listing []).2) :
    ∃ p es, listing = .ok es ∧ p ∈ filesUnder pj d es ∧ ignored p = false ∧
      e = normalizeForBrowsers p := by
  cases listing with
  | error err => simp [scanDirectory] at h
  | ok es =>
    obtain ⟨ps, hps, hall⟩ := scanEntries_collects pj d es []
    simp only [scanDirectory] at h
    rw [hps] at h
    simp only [List.nil_append, List.mem_map] at h
    obtain ⟨p, hp, rfl⟩ := h
    exact ⟨p, es, rfl, (hall p hp).2, (hall p hp).1, rfl⟩

theorem count_index_filter (xs : List String) :
    (xs.filter (fun a => a ≠ "./index.html")).count "./index.html" = 0 := by
  rw [List.count_eq_zero]
  intro h
  simpa using (List.mem_filter.1 h).2

theorem orderedAssets_length (xs : List String) :
    (orderedAssets xs).length = 2 + (xs.filter (fun a => a ≠ "./index.html")).length := by
  simp only [orderedAssets, List.length_cons]
  omega

/-! ## Lemmas on the walk from the root -/

theorem scanDirectory_posix (tree : List Dirent) (hw : wellFormed tree = true)
    (hok : (scanDirectory path.join ROOT (.ok tree) []).1 = .ok ()) :
    (scanDirectory path.join ROOT (.ok tree) []).2 =
      ((filesUnder path.join ROOT tree).filter (fun p => !ignored p)).map
        normalizeForBrowsers := by
  have := scanEntries_posix ROOT (Or.inl rfl) tree [] hw hok
  simpa [scanDirectory] using this

theorem count_root_marker (xs : List String) :
    (orderedAssets xs).count "./" = 1 + xs.count "./" := by
  have h : (xs.filter (fun a => a ≠ "./index.html")).count "./" = xs.count "./" :=
    List.count_filter (by decide)
  simp only [orderedAssets, List.count_cons, h]
  have h1 : (("./" : String) == "./") = true := by decide
  have h2 : (("./index.html" : String) == "./") = false := by decide
  simp only [h1, h2]
  simp only [if_true, Bool.false_eq_true, if_false]
  omega

theorem count_index (xs : List String) :
    (orderedAssets xs).count "./index.html" = 1 := by
  have h1 : (("./" : String) == "./index.html") = false := by decide
  have h2 : (("./index.html" : String) == "./index.html") = true := by decide
  simp only [orderedAssets, List.count_cons, count_index_filter xs, h1, h2]
  decide

theorem ignored_eq_false_iff (p : String) :
    ignored p = false ↔ ∀ frag ∈ IGNORE, ¬ (frag.data <:+: p.data) := by
  unfold ignored
  rw [← Bool.not_eq_true, List.any_eq_true]
  simp [includes]

/-! ## Lemmas on read failures -/

theorem ReadError.mono (pj : String → String → String) {d : String} {es es2 : List Dirent}
    {err : IOError} (h : ReadError pj d es err) (hsub : ∀ x ∈ es, x ∈ es2) :
    ReadError pj d es2 err := by
  cases h with
  | direct hmem hi => exact ReadError.direct (hsub _ hmem) hi
  | nested hmem hi hsubdir => exact ReadError.nested (hsub _ hmem) hi hsubdir

mutual
theorem readError_of_scanEntries (pj : String → String → String) (d : String) :
    ∀ (es : List Dirent) (assets : List String) (err : IOError),
      (scanEntries pj d es assets).1 = .error err → ReadError pj d es err
  | [], assets, err, h => by simp [scanEntries] at h
  | e :: rest, assets, err, h => by
    unfold scanEntries at h
    rcases hres : scanEntry pj d e assets with ⟨r, a1⟩
    rw [hres] at h
    cases r with
    | ok u =>
      simp only at h
      exact (readError_of_scanEntries pj d rest a1 err h).mono pj
        (fun x hx => List.mem_cons_of_mem _ hx)
    | error err2 =>
      simp only [Except.error.injEq] at h
      subst h
      exact readError_of_scanEntry pj d e assets err2 (by rw [hres]) (e :: rest)
        (List.mem_cons_self _ _)
theorem readError_of_scanEntry (pj : String → String → String) (d : String) :
    ∀ (e : Dirent) (assets : List String) (err : IOError),
      (scanEntry pj d e assets).1 = .error err →
      ∀ es : List Dirent, e ∈ es → ReadError pj d es err
  | .file name, assets, err, h => by
    unfold scanEntry at h
    by_cases hi : ignored (pj d name) = true
    · simp [hi] at h
    · simp [hi] at h
  | .directory name sub, assets, err, h => by
    intro es hmem
    unfold scanEntry at h
    by_cases hi : ignored (pj d name) = true
    · simp [hi] at h
    · simp only [hi, Bool.false_eq_true, if_false] at h
      exact ReadError.nested hmem (by simpa using hi)
        (readError_of_scanEntries pj (pj d name) sub assets err h)
  | .unreadable name err2, assets, err, h => by
    intro es hmem
    unfold scanEntry at h
    by_cases hi : ignored (pj d name) = true
    · simp [hi] at h
    · simp only [hi, Bool.false_eq_true, if_false, Except.error.injEq] at h
      subst h
      exact ReadError.direct hmem (by simpa using hi)
end

theorem meets_of_readError (pj : String → String → String) {d : String} {es : List Dirent}
    {err : IOError} (h : ReadError pj d es err) : MeetsUnreadable pj d es := by
  induction h with
  | direct hmem hi => exact MeetsUnreadable.direct hmem hi
  | nested hmem hi _ ih => exact MeetsUnreadable.nested hmem hi ih

theorem rootReadError_of_scan_error (pj : String → String → String)
    (listing : Except IOError (List Dirent)) (assets : List String) (err : IOError)
    (h : (scanDirectory pj ROOT listing assets).1 = .error err) :
    RootReadError pj listing err := by
  cases listing with
  | error e =>
    simp only [scanDirectory, Except.error.injEq] at h
    exact h
  | ok es => exact readError_of_scanEntries pj ROOT es assets err h

theorem readFails_of_rootReadError (pj : String → String → String)
    (listing : Except IOError (List Dirent)) (err : IOError)
    (h : RootReadError pj listing err) : ReadFails pj listing := by
  cases listing with
  | error e => trivial
  | ok es => exact meets_of_readError pj h

theorem scan_ok_of_not_readFails (pj : String → String → String)
    (listing : Except IOError (List Dirent)) (assets : List String)
    (h : ¬ ReadFails pj listing) : (scanDirectory pj ROOT listing assets).1 = .ok () := by
  rcases hres : (scanDirectory pj ROOT listing assets).1 with err | u
  · exact absurd
      (readFails_of_rootReadError pj listing err
        (rootReadError_of_scan_error pj listing assets err hres)) h
  · rfl

theorem not_readFails_of_scan_ok (pj : String → String → String)
    (listing : Except IOError (List Dirent))
    (h : (scanDirectory pj ROOT listing []).1 = .ok ()) : ¬ ReadFails pj listing := by
  intro hf
  obtain ⟨err, herr⟩ := scanDirectory_error_of_readFails pj listing hf []
  rw [h] at herr
  simp at herr

theorem not_ignored_of_collected (pj : String → String → String) (d : String)
    (listing : Except IOError (List Dirent)) (p : String)
    (h : normalizeForBrowsers p ∈ (scanDirectory pj d listing []).2) :
    ignored p = false := by
  obtain ⟨q, _, _, _, hq, hpq⟩ := mem_scanDirectory pj d listing _ h
  rw [← ignored_normalizeForBrowsers p, hpq, ignored_normalizeForBrowsers q, hq]

/-! ## The serialization determines the array -/

namespace JSON

theorem hexValue_hexDigit : ∀ n < 16, hexValue (hexDigit n) = n := by
  decide

theorem eq_ofNat_of_toNat (c : Char) (n : Nat) (h : c.toNat = n) : c = Char.ofNat n := by
  rw [← h, Char.ofNat_toNat]

theorem unescape_escapeChar (c : Char) (r : List Char) :
    unescape (escapeChar c ++ r) = some (c, r) := by
  unfold escapeChar
  split_ifs with h1 h2 h3 h4 h5 h6 h7 h8
  · subst h1; rfl
  · subst h2; rfl
  · rw [eq_ofNat_of_toNat c 8 h3]; rfl
  · rw [eq_ofNat_of_toNat c 9 h4]; rfl
  · rw [eq_ofNat_of_toNat c 10 h5]; rfl
  · rw [eq_ofNat_of_toNat c 12 h6]; rfl
  · rw [eq_ofNat_of_toNat c 13 h7]; rfl
  · have hq : c.toNat / 16 < 16 := by omega
    have hm : c.toNat % 16 < 16 := by omega
    have hv : 16 * hexValue (hexDigit (c.toNat / 16)) + hexValue (hexDigit (c.toNat % 16))
        = c.toNat := by
      rw [hexValue_hexDigit _ hq, hexValue_hexDigit _ hm]
      omega
    have hu : unescape (['\\', 'u', '0', '0', hexDigit (c.toNat / 16),
        hexDigit (c.toNat % 16)] ++ r) =
        some (Char.ofNat (16 * hexValue (hexDigit (c.toNat / 16)) +
          hexValue (hexDigit (c.toNat % 16))), r) := rfl
    rw [hu, hv, Char.ofNat_toNat]
  · simp [unescape, h1, h2]

theorem body_inj (s : List Char) :
    ∀ (s2 r r2 : List Char),
      s.flatMap escapeChar ++ '"' :: r = s2.flatMap escapeChar ++ '"' :: r2 →
      s = s2 ∧ r = r2 := by
  induction s with
  | nil =>
    intro s2 r r2 h
    cases s2 with
    | nil => simpa using h
    | cons c2 t2 =>
      have := congrArg unescape h
      simp only [List.flatMap_cons, List.flatMap_nil, List.nil_append, List.append_assoc,
        unescape_escapeChar] at this
      simp [unescape] at this
  | cons c t ih =>
    intro s2 r r2 h
    cases s2 with
    | nil =>
      have := congrArg unescape h
      simp only [List.flatMap_cons, List.flatMap_nil, List.nil_append, List.append_assoc,
        unescape_escapeChar] at this
      simp [unescape] at this
    | cons c2 t2 =>
      have := congrArg unescape h
      simp only [List.flatMap_cons, List.append_assoc, unescape_escapeChar,
        Option.some.injEq, Prod.mk.injEq] at this
      obtain ⟨hc, ht⟩ := this
      obtain ⟨ht2, hr⟩ := ih t2 r r2 ht
      exact ⟨by rw [hc, ht2], hr⟩

theorem quote_inj (s s2 : String) (r r2 : List Char)
    (h : quote s ++ r = quote s2 ++ r2) : s = s2 ∧ r = r2 := by
  simp only [quote, List.cons_append, List.append_assoc, List.cons.injEq, true_and,
    List.singleton_append] at h
  obtain ⟨hs, hr⟩ := body_inj s.data s2.data r r2 h
  exact ⟨String.ext hs, hr⟩

theorem items_inj (xs : List String) :
    ∀ (ys : List String) (r r2 : List Char), xs ≠ [] → ys ≠ [] →
      items xs ++ '\n' :: r = items ys ++ '\n' :: r2 → xs = ys := by
  induction xs with
  | nil => intro ys r r2 h; exact absurd rfl h
  | cons s tl ih =>
    intro ys r r2 _ hy h
    obtain ⟨s2, tl2, rfl⟩ := List.exists_cons_of_ne_nil hy
    cases tl with
    | nil =>
      cases tl2 with
      | nil =>
        simp only [items, List.cons_append, List.cons.injEq, true_and] at h
        rw [(quote_inj s s2 _ _ h).1]
      | cons t2 rest2 =>
        simp only [items, List.cons_append, List.append_assoc, List.cons.injEq,
          true_and] at h
        have := (quote_inj s s2 _ _ h).2
        simp at this
    | cons t rest =>
      cases tl2 with
      | nil =>
        simp only [items, List.cons_append, List.append_assoc, List.cons.injEq,
          true_and] at h
        have := (quote_inj s s2 _ _ h).2
        simp at this
      | cons t2 rest2 =>
        simp only [items, List.cons_append, List.append_assoc, List.cons.injEq,
          true_and] at h
        obtain ⟨hs, hr⟩ := quote_inj s s2 _ _ h
        simp only [List.cons.injEq, true_and] at hr
        have := ih (t2 :: rest2) r r2 (by simp) (by simp)
          (by simpa [items, List.append_assoc] using hr)
        rw [hs, this]

theorem stringify_inj (xs ys : List String) (h : stringify xs = stringify ys) : xs = ys := by
  have hd := congrArg String.data h
  cases xs with
  | nil =>
    cases ys with
    | nil => rfl
    | cons y ys => simp [stringify] at hd
  | cons x xs =>
    cases ys with
    | nil => simp [stringify] at hd
    | cons y ys =>
      simp only [stringify, List.cons.injEq, true_and] at hd
      exact items_inj _ _ [']'] [']'] (by simp) (by simp) hd

end JSON

theorem output_inj (xs ys : List String) (h : output xs = output ys) : xs = ys := by
  have hd := congrArg String.data h
  simp only [output, String.data_append, List.append_assoc] at hd
  have h2 := List.append_cancel_left hd
  have h3 := List.append_cancel_right h2
  exact JSON.stringify_inj xs ys (String.ext h3)

/-! ## The claims -/

/-- C5, as stated, fails: the Orderer applied to its own output differs from one
application, because the root marker is prepended again and only `./index.html` is
filtered out. -/
theorem orderedAssets_twice_differs :
    orderedAssets (orderedAssets ["app.js"]) = ["./", "./index.html", "./", "app.js"] ∧
    orderedAssets ["app.js"] = ["./", "./index.html", "app.js"] ∧
    orderedAssets (orderedAssets ["app.js"]) ≠ orderedAssets ["app.js"] := by
  decide

/-- C5, amended: for every list `xs`, the Orderer applied to its own output yields `./`,
`./index.html`, a second `./`, then the elements of `xs` different from `./index.html` in
their order; `./index.html` still occurs exactly once, and the list is one longer than
after one application. -/
theorem orderedAssets_twice (xs : List String) :
    orderedAssets (orderedAssets xs) =
      "./" :: "./index.html" :: "./" :: xs.filter (fun a => a ≠ "./index.html") ∧
    (orderedAssets (orderedAssets xs)).count "./index.html" = 1 ∧
    (orderedAssets (orderedAssets xs)).length = (orderedAssets xs).length + 1 := by
  have h : orderedAssets (orderedAssets xs) =
      "./" :: "./index.html" :: "./" :: xs.filter (fun a => a ≠ "./index.html") := by
    simp [orderedAssets, List.filter_cons, List.filter_filter]
  refine ⟨h, ?_, ?_⟩
  · rw [h]
    have := count_index_filter xs
    simp only [List.count_cons, this]
    decide
  · rw [h]
    simp [orderedAssets]

/-- C6: normalization maps every backslash of a joined path to a forward slash and
changes nothing else; so, whatever the host's `path.join` returns and whatever the tree,
no entry of the final asset list contains a backslash. -/
theorem final_assets_have_no_backslash :
    (∀ p : String, (normalizeForBrowsers p).data =
        p.data.map (fun c => if c = '\\' then '/' else c)) ∧
    ∀ (pj : String → String → String) (listing : Except IOError (List Dirent))
      (e : String), e ∈ finalAssets pj listing → '\\' ∉ e.data := by
  refine ⟨normalizeForBrowsers_data, ?_⟩
  intro pj listing e he
  simp only [finalAssets, orderedAssets, List.mem_cons] at he
  rcases he with he | he | he
  · subst he; decide
  · subst he; decide
  · obtain ⟨p, _, _, _, _, rfl⟩ := mem_scanDirectory pj ROOT listing e (List.mem_filter.1 he).1
    exact normalizeForBrowsers_no_backslash p

/-- C6 at a concrete tree: a POSIX file named `x\y` in `assets` is listed as
`assets/x/y`. -/
theorem final_assets_have_no_backslash_witness :
    "assets/x/y" ∈ finalAssets path.join (.ok [.directory "assets" [.file "x\\y"]]) ∧
    '\\' ∉ "assets/x/y".data :=
  ⟨by decide, final_assets_have_no_backslash.2 path.join
    (.ok [.directory "assets" [.file "x\\y"]]) "assets/x/y" (by decide)⟩

/-- C9: if reading the root or any directory that is not pruned fails, the run is
aborted: the output file is as it was before the run, neither summary line is printed,
and `generate` rejects with an error, which is what reaches the diagnostic stream. -/
theorem read_failure_aborts_run (pj : String → String → String) (w : World)
    (h : ReadFails pj w.root) :
    (main pj w).artifact = w.artifact ∧ (main pj w).stdout = [] ∧
    ∃ err, (generate pj w).1 = .error err ∧ (main pj w).stderr = [err] := by
  obtain ⟨err, herr⟩ := scanDirectory_error_of_readFails pj w.root h []
  rw [main_of_scan_error pj w err herr, generate_of_scan_error pj w err herr]
  exact ⟨rfl, rfl, err, rfl, rfl⟩

/-- C9 at the locked tree: `index.html` was collected before `private` failed, and the
earlier artifact is still in place. -/
theorem read_failure_aborts_run_witness :
    (scanDirectory path.join ROOT lockedWorld.root []).2 = ["index.html"] ∧
    (main path.join lockedWorld).artifact = some "old" ∧
    (main path.join lockedWorld).stdout = [] :=
  have h := read_failure_aborts_run path.join lockedWorld
    (@MeetsUnreadable.direct path.join ROOT lockedTree "private" ⟨"EACCES", "private"⟩
      (by simp [lockedTree]) (by decide))
  ⟨by decide, h.1, h.2.1⟩

/-- C3, evaluated at the example scenario: the entries collected by the walk carry no
`./`, because `path.join("./", name)` is `name`; the final list is not the one of the
claim. -/
theorem example_scenario_final_list :
    wellFormed exampleTree = true ∧
    path.join ROOT "index.html" = "index.html" ∧
    finalAssets path.join (.ok exampleTree) =
      ["./", "./index.html", "index.html", "app.js", "assets/img/logo.png"] := by
  decide

/-- C4, evaluated at a root directory holding `index.html` and `app.js`: the entry
collected for `index.html` is `index.html`, which the filter for `./index.html` keeps, so
the final list has the number of collected entries plus two elements. -/
theorem root_index_kept_by_filter :
    (scanDirectory path.join ROOT (.ok [.file "index.html", .file "app.js"]) []).2 =
      ["index.html", "app.js"] ∧
    finalAssets path.join (.ok [.file "index.html", .file "app.js"]) =
      ["./", "./index.html", "index.html", "app.js"] ∧
    (finalAssets path.join (.ok [.file "index.html", .file "app.js"])).length = 2 + 2 := by
  decide

/-- C7: on every run that succeeds, the artifact written is the serialization of the
final list, the second summary line prints that list's length, that length is 2 plus
the number of collected entries different from `./index.html`, and any array of strings
whose serialization is the written text has exactly that many elements. -/
theorem printed_total_matches_artifact (pj : String → String → String) (w : World)
    (h : (generate pj w).1 = .ok ()) :
    (main pj w).artifact = some (output (finalAssets pj w.root)) ∧
    (main pj w).stdout =
      [generatedLine, "📦 Total assets cached: " ++ toString (finalAssets pj w.root).length] ∧
    (finalAssets pj w.root).length =
      2 + ((scanDirectory pj ROOT w.root []).2.filter (fun a => a ≠ "./index.html")).length ∧
    ∀ arr : List String, (main pj w).artifact = some (output arr) →
      arr.length = (finalAssets pj w.root).length := by
  rw [main_of_generate_ok pj w h]
  refine ⟨rfl, rfl, orderedAssets_length _, ?_⟩
  intro arr harr
  simp only [Option.some.injEq] at harr
  rw [output_inj _ _ harr]

/-- C7 at the example tree: five assets are written and `5` is printed. -/
theorem printed_total_matches_artifact_witness :
    (main path.join exampleWorld).stdout =
      ["✔ Cache list generated in: generated-assets.js", "📦 Total assets cached: 5"] ∧
    (finalAssets path.join exampleWorld.root).length = 5 :=
  ⟨(printed_total_matches_artifact path.join exampleWorld rfl).2.1.trans (by decide),
   by decide⟩

/-- C10: on every run that succeeds, the text written is the header comment, the line
`const CACHE = "flashcards-v" + Date.now();` as source text, and the final list
serialized with two-space indentation; a run over the same tree at another time, and
over another earlier artifact, writes the same text. -/
theorem artifact_depends_on_assets_only (pj : String → String → String) (w : World)
    (h : (generate pj w).1 = .ok ()) :
    (main pj w).artifact = some
      ("\n// auto-generated — do not modify manually!\nconst CACHE = \"flashcards-v\" + Date.now();\n\nconst ASSETS = "
        ++ JSON.stringify (finalAssets pj w.root) ++ ";\n") ∧
    ∀ w2 : World, w2.root = w.root → w2.writeFault = none →
      (main pj w2).artifact = (main pj w).artifact := by
  refine ⟨by rw [main_of_generate_ok pj w h]; rfl, ?_⟩
  intro w2 hroot hwrite
  have hs := (scan_ok_of_generate_ok pj w h).1
  have h2 : (generate pj w2).1 = .ok () := by
    rw [generate_of_scan_ok pj w2 (by rw [hroot]; exact hs), hwrite]
  rw [main_of_generate_ok pj w h, main_of_generate_ok pj w2 h2, hroot]

/-- C10 at the example tree: the text written, and the same text one hour later over a
stale artifact. -/
theorem artifact_depends_on_assets_only_witness :
    (main path.join exampleWorld).artifact = some
      "\n// auto-generated — do not modify manually!\nconst CACHE = \"flashcards-v\" + Date.now();\n\nconst ASSETS = [\n  \"./\",\n  \"./index.html\",\n  \"index.html\",\n  \"app.js\",\n  \"assets/img/logo.png\"\n];\n" ∧
    (main path.join ⟨.ok exampleTree, 1700003600000, some "stale", none⟩).artifact =
      (main path.join exampleWorld).artifact :=
  ⟨(artifact_depends_on_assets_only path.join exampleWorld rfl).1.trans (by rfl),
   (artifact_depends_on_assets_only path.join exampleWorld rfl).2
     ⟨.ok exampleTree, 1700003600000, some "stale", none⟩ rfl rfl⟩

/-- C1, as stated, fails: on a POSIX host a root directory holding a file named `.\`
yields a final list in which `./` occurs twice, the second being the entry collected for
that file. -/
theorem root_marker_twice :
    wellFormed [.file ".\\"] = true ∧
    finalAssets path.join (.ok [.file ".\\"]) = ["./", "./index.html", "./"] ∧
    (finalAssets path.join (.ok [.file ".\\"])).count "./" = 2 := by
  decide

/-- C1, amended: for every directory tree, and whatever the host's `path.join`, the final
list has `./` first and `./index.html` second, and `./index.html` occurs exactly once;
the Orderer keeps a collected `./`, so `./` occurs once at the head and once more for
each collected entry equal to `./`: exactly once when the walk collected no such
entry. -/
theorem sentinel_entries (pj : String → String → String)
    (listing : Except IOError (List Dirent)) :
    (finalAssets pj listing)[0]? = some "./" ∧
    (finalAssets pj listing)[1]? = some "./index.html" ∧
    (finalAssets pj listing).count "./index.html" = 1 ∧
    (finalAssets pj listing).count "./" =
      1 + (scanDirectory pj ROOT listing []).2.count "./" ∧
    ("./" ∉ (scanDirectory pj ROOT listing []).2 →
      (finalAssets pj listing).count "./" = 1) := by
  refine ⟨by simp [finalAssets, orderedAssets], by simp [finalAssets, orderedAssets],
    count_index _, count_root_marker _, ?_⟩
  intro h
  unfold finalAssets
  rw [count_root_marker, List.count_eq_zero.2 h]

/-- C1, amended, at the tree with zero files and at the example tree. -/
theorem sentinel_entries_witness :
    finalAssets path.join (.ok []) = ["./", "./index.html"] ∧
    (finalAssets path.join (.ok [])).count "./" = 1 ∧
    (finalAssets path.join (.ok exampleTree)).count "./" = 1 ∧
    (finalAssets path.join (.ok exampleTree)).count "./index.html" = 1 :=
  ⟨by decide,
   (sentinel_entries path.join (.ok [])).2.2.2.2 (by decide),
   (sentinel_entries path.join (.ok exampleTree)).2.2.2.2 (by decide),
   (sentinel_entries path.join (.ok exampleTree)).2.2.1⟩

/-- C2, as stated, fails: in a tree whose directory `private` cannot be read the walk
stops at that directory, and `app.js`, listed after it and containing no ignore-set
string, is not in the collected list. -/
theorem unignored_file_not_collected :
    wellFormed lockedTree = true ∧
    filesUnder path.join ROOT lockedTree = ["index.html", "app.js"] ∧
    ignored "app.js" = false ∧
    (scanDirectory path.join ROOT (.ok lockedTree) []).2 = ["index.html"] ∧
    normalizeForBrowsers "app.js" ∉ (scanDirectory path.join ROOT (.ok lockedTree) []).2 := by
  decide

/-- C2, amended: for every directory tree, a file whose entry is listed has a joined path
that contains no ignore-set string, and no file whose joined path extends a path
containing one (a pruned directory) is listed; when no directory the walk reads is
unreadable, the collected list is, in traversal order, the normalized joined paths of
exactly the files whose joined path contains no ignore-set string, so a file's entry is
listed if and only if its joined path contains none. -/
theorem ignore_enforcement (tree : List Dirent) (hw : wellFormed tree = true) :
    (∀ p ∈ filesUnder path.join ROOT tree,
      normalizeForBrowsers p ∈ (scanDirectory path.join ROOT (.ok tree) []).2 →
        ∀ frag ∈ IGNORE, ¬ (frag.data <:+: p.data)) ∧
    (∀ p ∈ filesUnder path.join ROOT tree, ∀ d : String, d.data <+: p.data →
      (∃ frag ∈ IGNORE, frag.data <:+: d.data) →
      normalizeForBrowsers p ∉ (scanDirectory path.join ROOT (.ok tree) []).2) ∧
    (¬ ReadFails path.join (.ok tree) →
      (scanDirectory path.join ROOT (.ok tree) []).2 =
        ((filesUnder path.join ROOT tree).filter (fun p => !ignored p)).map
          normalizeForBrowsers ∧
      ∀ p ∈ filesUnder path.join ROOT tree,
        (normalizeForBrowsers p ∈ (scanDirectory path.join ROOT (.ok tree) []).2 ↔
          ∀ frag ∈ IGNORE, ¬ (frag.data <:+: p.data))) := by
  refine ⟨?_, ?_, ?_⟩
  · intro p _ hmem
    rw [← ignored_eq_false_iff]
    exact not_ignored_of_collected path.join ROOT _ p hmem
  · intro p _ d hd hfrag hmem
    have hi : ignored d = true := by
      rcases hb : ignored d with _ | _
      · rw [ignored_eq_false_iff] at hb
        obtain ⟨frag, hf, hin⟩ := hfrag
        exact absurd hin (hb frag hf)
      · rfl
    have := ignored_mono d p hd hi
    rw [not_ignored_of_collected path.join ROOT _ p hmem] at this
    exact absurd this (by decide)
  · intro hread
    have hok := scan_ok_of_not_readFails path.join (.ok tree) [] hread
    have heq := scanDirectory_posix tree hw hok
    refine ⟨heq, ?_⟩
    intro p hp
    rw [← ignored_eq_false_iff]
    constructor
    · exact not_ignored_of_collected path.join ROOT _ p
    · intro h
      rw [heq]
      exact List.mem_map.2 ⟨p, List.mem_filter.2 ⟨hp, by simp [h]⟩, rfl⟩

/-- C2, amended, at a tree with `service-worker.js.bak`, `.gitignore`, `.github/ci.yml`
and `lib/node_modules/x.js`, all directories readable: only `app.js` and `lib/util.js`
are listed. -/
theorem ignore_enforcement_witness :
    filesUnder path.join ROOT fragmentTree =
      ["service-worker.js.bak", ".gitignore", "app.js", ".github/ci.yml",
       "lib/node_modules/x.js", "lib/util.js"] ∧
    ¬ ReadFails path.join (.ok fragmentTree) ∧
    (scanDirectory path.join ROOT (.ok fragmentTree) []).2 = ["app.js", "lib/util.js"] :=
  ⟨by decide, not_readFails_of_scan_ok path.join (.ok fragmentTree) rfl,
   ((ignore_enforcement fragmentTree rfl).2.2
      (not_readFails_of_scan_ok path.join (.ok fragmentTree) rfl)).1.trans (by decide)⟩

/-- C8, as stated, fails: when `readdir` of a directory rejects, the error is printed,
but the process ends with exit status 0, as the rejection is handled by
`.catch(console.error)` and nothing sets a failure status. The same holds when the write
rejects. -/
theorem failed_run_exits_zero :
    (generate path.join lockedWorld).1 = .error ⟨"EACCES", "private"⟩ ∧
    (main path.join lockedWorld).stderr = [⟨"EACCES", "private"⟩] ∧
    (main path.join lockedWorld).exitCode = 0 ∧
    (generate path.join diskFullWorld).1 = .error ⟨"ENOSPC", "generated-assets.js"⟩ ∧
    (main path.join diskFullWorld).exitCode = 0 :=
  ⟨rfl, rfl, rfl, rfl, rfl⟩

/-- C8, amended: when reading the root or a directory that is not pruned fails, the
error of such a directory is printed to the diagnostic stream; when every such read
succeeds and `fs.writeFile` rejects, its error is printed there; in both cases no summary
line is printed and the process ends with exit status 0. When neither fails, nothing is
printed to the diagnostic stream, both summary lines are printed and the exit status is 0
as well. -/
theorem main_prints_error_exit_zero (pj : String → String → String) (w : World) :
    (ReadFails pj w.root →
      ∃ err, RootReadError pj w.root err ∧ (main pj w).stderr = [err] ∧
        (main pj w).stdout = [] ∧ (main pj w).exitCode = 0) ∧
    (¬ ReadFails pj w.root → ∀ err remains, w.writeFault = some (err, remains) →
      (main pj w).stderr = [err] ∧ (main pj w).stdout = [] ∧ (main pj w).exitCode = 0) ∧
    (¬ ReadFails pj w.root → w.writeFault = none →
      (main pj w).stderr = [] ∧
      (main pj w).stdout = [generatedLine, totalLine (finalAssets pj w.root).length] ∧
      (main pj w).exitCode = 0) := by
  refine ⟨?_, ?_, ?_⟩
  · intro h
    obtain ⟨err, herr⟩ := scanDirectory_error_of_readFails pj w.root h []
    refine ⟨err, rootReadError_of_scan_error pj w.root [] err herr, ?_⟩
    rw [main_of_scan_error pj w err herr]
    exact ⟨rfl, rfl, rfl⟩
  · intro h err remains hw
    have hs := scan_ok_of_not_readFails pj w.root [] h
    unfold main
    rw [generate_of_scan_ok pj w hs, hw]
    exact ⟨rfl, rfl, rfl⟩
  · intro h hw
    have hs := scan_ok_of_not_readFails pj w.root [] h
    unfold main
    rw [generate_of_scan_ok pj w hs, hw]
    exact ⟨rfl, rfl, rfl⟩

/-- C8, amended, at concrete runs: the locked tree, the full disk, and the example tree
with a write that succeeds. -/
theorem main_prints_error_exit_zero_witness :
    (∃ err, RootReadError path.join lockedWorld.root err ∧
      (main path.join lockedWorld).stderr = [err] ∧
      (main path.join lockedWorld).stdout = [] ∧
      (main path.join lockedWorld).exitCode = 0) ∧
    ((main path.join diskFullWorld).stderr = [⟨"ENOSPC", "generated-assets.js"⟩] ∧
      (main path.join diskFullWorld).stdout = [] ∧
      (main path.join diskFullWorld).exitCode = 0) ∧
    (main path.join exampleWorld).stderr = [] :=
  ⟨(main_prints_error_exit_zero path.join lockedWorld).1
     (@MeetsUnreadable.direct path.join ROOT lockedTree "private" ⟨"EACCES", "private"⟩
       (by simp [lockedTree]) (by decide)),
   (main_prints_error_exit_zero path.join diskFullWorld).2.1
     (not_readFails_of_scan_ok path.join diskFullWorld.root rfl) _ _ rfl,
   ((main_prints_error_exit_zero path.join exampleWorld).2.2
     (not_readFails_of_scan_ok path.join exampleWorld.root rfl) rfl).1⟩

end GenerateCacheList
